import Mathlib

/-!
Verification of the JLLVM code-generation front: the descriptor data model
(`src/jllvm/class/Descriptors.hpp`), the stub-symbol mangling scheme
(`src/jllvm/materialization/ClassObjectStubMangling.hpp`), and the
`OperandStack` translation helper
(`src/jllvm/materialization/CodeGeneratorUtils.hpp`).

Strings are modelled as `List Char` (llvm::StringRef is a view over chars).
Operations whose C++ counterparts have unchecked preconditions (vector
indexing, `StringRef::front`, loading an uninitialized or null-typed slot)
are modelled with `Option`, `none` standing for the undefined behaviour that
a violated precondition produces.
-/

namespace jllvm

/-- The `BaseType::Values` enum from Descriptors.hpp, in declaration order. -/
inductive BaseTypeValues
  | Boolean
  | Byte
  | Char
  | Short
  | Int
  | Float
  | Double
  | Long
  | Void
deriving DecidableEq

/-- The numeric value of each enumerator (C++ enums number from 0 in order). -/
def BaseTypeValues.enumVal : BaseTypeValues → Nat
  | .Boolean => 0
  | .Byte => 1
  | .Char => 2
  | .Short => 3
  | .Int => 4
  | .Float => 5
  | .Double => 6
  | .Long => 7
  | .Void => 8

/-- `BaseType` wraps a single enum value; we identify it with the enum. -/
abbrev BaseType := BaseTypeValues

/-- `BaseType::isIntegerType`: the switch over `m_value` in Descriptors.hpp. -/
def BaseType.isIntegerType : BaseType → Bool
  | .Boolean => true
  | .Byte => true
  | .Char => true
  | .Short => true
  | .Int => true
  | .Long => true
  | _ => false

/-- `BaseType::isUnsigned`: `m_value == Char || m_value == Boolean`. -/
def BaseType.isUnsigned (b : BaseType) : Bool :=
  b = BaseTypeValues.Char ∨ b = BaseTypeValues.Boolean

/-- `BaseType::operator==`: compares the stored enum values. -/
def baseTypeEq (a b : BaseType) : Bool :=
  a.enumVal = b.enumVal

/-- `FieldType = std::variant<BaseType, ObjectType, ArrayType>` with
`ObjectType` carrying a class name and `ArrayType` a boxed component. -/
inductive FieldType
  | base (b : BaseType)
  | object (className : List Char)
  | array (componentType : FieldType)
deriving DecidableEq

/-- `ObjectType::operator==`: `className == rhs.className`. -/
def objectTypeEq (a b : List Char) : Bool :=
  a = b

/-- Equality of `FieldType` following `std::variant::operator==` (equal
alternative index and equal payload), with `ArrayType::operator==` comparing
components recursively. -/
def fieldTypeEq : FieldType → FieldType → Bool
  | FieldType.base a, FieldType.base b => baseTypeEq a b
  | FieldType.object a, FieldType.object b => objectTypeEq a b
  | FieldType.array a, FieldType.array b => fieldTypeEq a b
  | _, _ => false

/-- `isReferenceDescriptor` from Descriptors.hpp:
`string.front() == 'L' || string.front() == '['`.
`llvm::StringRef::front` asserts the string is non-empty; calling it on an
empty string violates its precondition, modelled as `none`. -/
def isReferenceDescriptor : List Char → Option Bool
  | [] => none
  | c :: _ => some (c = 'L' ∨ c = '[')

/-- `MethodType`: parameter field types plus a return field type. -/
structure MethodType where
  parameters : List FieldType
  returnType : FieldType
deriving DecidableEq

/-- C7: `isIntegerType` is true exactly on {Boolean, Byte, Char, Short, Int,
Long} and false on Float, Double, Void; `isUnsigned` is true exactly on
{Char, Boolean}. -/
theorem baseType_classification :
    (∀ b : BaseType, b.isIntegerType = true ↔
      (b = BaseTypeValues.Boolean ∨ b = BaseTypeValues.Byte ∨
       b = BaseTypeValues.Char ∨ b = BaseTypeValues.Short ∨
       b = BaseTypeValues.Int ∨ b = BaseTypeValues.Long))
    ∧ (∀ b : BaseType, b.isIntegerType = false ↔
      (b = BaseTypeValues.Float ∨ b = BaseTypeValues.Double ∨
       b = BaseTypeValues.Void))
    ∧ (∀ b : BaseType, b.isUnsigned = true ↔
      (b = BaseTypeValues.Char ∨ b = BaseTypeValues.Boolean)) := by
  refine ⟨?_, ?_, ?_⟩ <;> intro b <;>
    cases b <;> simp [BaseType.isIntegerType, BaseType.isUnsigned]

/-- C8: field-type equality is structural: base types compare by enum value,
object types by class name, and array types are equal exactly when their
component types are equal, recursively; overall `fieldTypeEq` coincides with
structural (propositional) equality. -/
theorem fieldType_structural_eq :
    (∀ a b : BaseType, baseTypeEq a b = true ↔ a = b)
    ∧ (∀ a b : List Char, objectTypeEq a b = true ↔ a = b)
    ∧ (∀ x y : FieldType,
        fieldTypeEq (FieldType.array x) (FieldType.array y) = fieldTypeEq x y)
    ∧ (∀ x y : FieldType, fieldTypeEq x y = true ↔ x = y) := by
  have hbase : ∀ a b : BaseType, baseTypeEq a b = true ↔ a = b := by
    intro a b
    cases a <;> cases b <;> simp [baseTypeEq, BaseTypeValues.enumVal]
  have hobj : ∀ a b : List Char, objectTypeEq a b = true ↔ a = b := by
    intro a b; simp [objectTypeEq]
  refine ⟨hbase, hobj, fun x y => rfl, ?_⟩
  intro x
  induction x with
  | base a =>
    intro y; cases y <;> simp [fieldTypeEq, hbase]
  | object n =>
    intro y; cases y <;> simp [fieldTypeEq, hobj]
  | array c ih =>
    intro y
    cases y with
    | base b => simp [fieldTypeEq]
    | object n => simp [fieldTypeEq]
    | array d => simpa [fieldTypeEq] using ih d

/-- C6 counterexample: on the empty string, `isReferenceDescriptor` does not
return `false`; it hits the `StringRef::front` precondition instead. -/
theorem isReferenceDescriptor_empty_cex :
    isReferenceDescriptor [] ≠ some false := by
  decide

/-- C6 amended: for non-empty strings, `isReferenceDescriptor` returns `true`
exactly when the first character is `L` or `[`; on the empty string the code
violates the `StringRef::front` precondition rather than returning `false`. -/
theorem isReferenceDescriptor_spec (s : List Char) :
    (isReferenceDescriptor s = none ↔ s = [])
    ∧ (isReferenceDescriptor s = some true ↔
        ∃ c t, s = c :: t ∧ (c = 'L' ∨ c = '[')) := by
  cases s with
  | nil => simp [isReferenceDescriptor]
  | cons c t =>
    constructor
    · simp [isReferenceDescriptor]
    · constructor
      · intro h
        refine ⟨c, t, rfl, ?_⟩
        simpa [isReferenceDescriptor] using h
      · rintro ⟨c', t', heq, hc⟩
        cases heq
        simp [isReferenceDescriptor, hc]

/-! ## OperandStack (CodeGeneratorUtils.hpp)

LLVM IR types and values are abstracted: a value carries its `llvm::Type`
and an identity. `CreateLoad(type, alloc)` reinterprets the slot's contents
at the recorded type, modelled by `loadAs`. The `m_values` vector of allocas
is modelled by a list of slot contents (`none` = uninitialized alloca);
`m_types` starts as null pointers (`none`). Out-of-bounds vector indexing,
`front()` on an empty vector, and loads through a null type are undefined
behaviour in the C++, modelled as `none` results. -/

/-- Abstraction of `llvm::Type*`; `reference` is `referenceType(ctx)`. -/
inductive LLVMType
  | i32
  | i64
  | float
  | double
  | ptr
  | reference
deriving DecidableEq

/-- Abstraction of `llvm::Value*`: a type together with an identity. -/
structure LLVMValue where
  ty : LLVMType
  ident : Nat
deriving DecidableEq

/-- `CreateLoad(type, alloc)`: the slot contents reinterpreted at `type`. -/
def loadAs (t : LLVMType) (v : LLVMValue) : LLVMValue :=
  { v with ty := t }

/-- The `OperandStack` fields: `m_values` (alloca contents), `m_types`,
`m_topOfStack`. -/
structure OperandStack where
  values : List (Option LLVMValue)
  types : List (Option LLVMType)
  topOfStack : Nat
deriving DecidableEq

/-- `OperandStack::StackState`: a snapshot of `(m_types, m_topOfStack)`. -/
structure StackState where
  types : List (Option LLVMType)
  topOfStack : Nat
deriving DecidableEq

/-- The constructor `OperandStack(builder, maxStack)`: `maxStack` fresh
allocas (uninitialized) and `maxStack` null type pointers, top = 0. -/
def OperandStack.init (maxStack : Nat) : OperandStack :=
  ⟨List.replicate maxStack none, List.replicate maxStack none, 0⟩

/-- `push_back`: store `value` into the alloca at `m_topOfStack`, record its
type in `m_types[m_topOfStack]`, increment the top. Both indexings require
`m_topOfStack` to be in bounds of the respective vector. -/
def OperandStack.push_back (s : OperandStack) (v : LLVMValue) :
    Option OperandStack :=
  if s.topOfStack < s.values.length ∧ s.topOfStack < s.types.length then
    some { s with
           values := s.values.set s.topOfStack (some v),
           types := s.types.set s.topOfStack (some v.ty),
           topOfStack := s.topOfStack + 1 }
  else none

/-- `pop_back`: decrement the top, load from the alloca at the new top using
the recorded type. Popping an empty stack, indexing out of bounds, a null
recorded type, and loading an uninitialized alloca are undefined. -/
def OperandStack.pop_back (s : OperandStack) :
    Option (LLVMValue × OperandStack) :=
  match s.topOfStack with
  | 0 => none
  | t + 1 =>
    match s.values[t]?, s.types[t]? with
    | some (some v), some (some ty) =>
      some (loadAs ty v, { s with topOfStack := t })
    | _, _ => none

/-- `saveState`: copy `(m_types, m_topOfStack)`. -/
def OperandStack.saveState (s : OperandStack) : StackState :=
  ⟨s.types, s.topOfStack⟩

/-- `restoreState`: replace `(m_types, m_topOfStack)` with the snapshot. -/
def OperandStack.restoreState (s : OperandStack) (st : StackState) :
    OperandStack :=
  { s with types := st.types, topOfStack := st.topOfStack }

/-- `getHandlerState`: returns `{{referenceType(ctx)}, 1}` — a snapshot
whose types vector holds the single element `referenceType` and top 1. -/
def OperandStack.getHandlerState (_ : OperandStack) : StackState :=
  ⟨[some LLVMType.reference], 1⟩

/-- `setHandlerStack`: store `value` into the alloca `m_values.front()` and
record its type in `m_types.front()`; `front()` requires non-emptiness. -/
def OperandStack.setHandlerStack (s : OperandStack) (v : LLVMValue) :
    Option OperandStack :=
  match s.values, s.types with
  | _ :: _, _ :: _ =>
    some { s with
           values := s.values.set 0 (some v),
           types := s.types.set 0 (some v.ty) }
  | _, _ => none

/-- A sequence of `push_back` calls, failing if any one fails. -/
def OperandStack.pushAll : OperandStack → List LLVMValue → Option OperandStack
  | s, [] => some s
  | s, v :: rest =>
    match s.push_back v with
    | some s1 => s1.pushAll rest
    | none => none

/-- `n` consecutive `pop_back` calls, returning the values in pop order. -/
def OperandStack.popAll : Nat → OperandStack → Option (List LLVMValue × OperandStack)
  | 0, s => some ([], s)
  | n + 1, s =>
    match s.pop_back with
    | some (v, s1) =>
      match popAll n s1 with
      | some (vs, s2) => some (v :: vs, s2)
      | none => none
    | none => none

theorem push_back_eq (s : OperandStack) (v : LLVMValue)
    (hv : s.topOfStack < s.values.length) (ht : s.topOfStack < s.types.length) :
    s.push_back v = some
      { s with
        values := s.values.set s.topOfStack (some v),
        types := s.types.set s.topOfStack (some v.ty),
        topOfStack := s.topOfStack + 1 } := by
  simp [OperandStack.push_back, hv, ht]

theorem pop_back_eq (s : OperandStack) (t : Nat) (v : LLVMValue) (ty : LLVMType)
    (htop : s.topOfStack = t + 1)
    (hv : s.values[t]? = some (some v)) (ht : s.types[t]? = some (some ty)) :
    s.pop_back = some (loadAs ty v, { s with topOfStack := t }) := by
  unfold OperandStack.pop_back
  rw [htop]
  show (match s.values[t]?, s.types[t]? with
    | some (some v), some (some ty) =>
      some (loadAs ty v, { s with topOfStack := t })
    | _, _ => none) = some (loadAs ty v, { s with topOfStack := t })
  rw [hv, ht]

theorem pushAll_preserves (vs : List LLVMValue) :
    ∀ s s' : OperandStack, s.pushAll vs = some s' →
      s'.values.length = s.values.length ∧
      s'.types.length = s.types.length ∧
      s'.topOfStack = s.topOfStack + vs.length ∧
      ∀ i, i < s.topOfStack →
        s'.values[i]? = s.values[i]? ∧ s'.types[i]? = s.types[i]? := by
  induction vs with
  | nil =>
    intro s s' h
    obtain rfl : s = s' := by simpa [OperandStack.pushAll] using h
    exact ⟨rfl, rfl, rfl, fun i _ => ⟨rfl, rfl⟩⟩
  | cons v rest ih =>
    intro s s' h
    unfold OperandStack.pushAll at h
    cases h1 : s.push_back v with
    | none => rw [h1] at h; exact absurd h (by simp)
    | some s1 =>
      rw [h1] at h
      unfold OperandStack.push_back at h1
      by_cases hc : s.topOfStack < s.values.length ∧ s.topOfStack < s.types.length
      · rw [if_pos hc] at h1
        obtain rfl :
            ({ s with
               values := s.values.set s.topOfStack (some v),
               types := s.types.set s.topOfStack (some v.ty),
               topOfStack := s.topOfStack + 1 } : OperandStack) = s1 := by
          simpa using h1
        obtain ⟨e1, e2, e3, e4⟩ := ih _ _ h
        refine ⟨by simpa using e1, by simpa using e2, by simp [e3]; omega, ?_⟩
        intro i hi
        obtain ⟨f1, f2⟩ := e4 i (by simp; omega)
        constructor
        · rw [f1]; simp [List.getElem?_set_ne (by omega : s.topOfStack ≠ i)]
        · rw [f2]; simp [List.getElem?_set_ne (by omega : s.topOfStack ≠ i)]
      · rw [if_neg hc] at h1; cases h1

theorem popAll_append (a b : Nat) :
    ∀ (s s1 s2 : OperandStack) (l1 l2 : List LLVMValue),
      OperandStack.popAll a s = some (l1, s1) →
      OperandStack.popAll b s1 = some (l2, s2) →
      OperandStack.popAll (a + b) s = some (l1 ++ l2, s2) := by
  induction a with
  | zero =>
    intro s s1 s2 l1 l2 h1 h2
    obtain ⟨rfl, rfl⟩ : l1 = [] ∧ s1 = s := by
      simpa [OperandStack.popAll] using h1.symm
    simpa using h2
  | succ n ih =>
    intro s s1 s2 l1 l2 h1 h2
    unfold OperandStack.popAll at h1
    cases hp : s.pop_back with
    | none => rw [hp] at h1; cases h1
    | some p =>
      obtain ⟨v, sx⟩ := p
      rw [hp] at h1
      have h1' : (match OperandStack.popAll n sx with
          | some (vs, s2) => some (v :: vs, s2)
          | none => none) = some (l1, s1) := h1
      cases hq : OperandStack.popAll n sx with
      | none => rw [hq] at h1'; cases h1'
      | some q =>
        obtain ⟨t, s1'⟩ := q
        rw [hq] at h1'
        obtain ⟨h1a, h1b⟩ : l1 = v :: t ∧ s1 = s1' := by
          simpa using h1'.symm
        subst h1a
        have hrec := ih sx s1' s2 t l2 hq (h1b ▸ h2)
        have hb : n + 1 + b = (n + b) + 1 := by omega
        rw [hb]
        unfold OperandStack.popAll
        rw [hp]
        show (match OperandStack.popAll (n + b) sx with
          | some (vs, s2) => some (v :: vs, s2)
          | none => none) = some (v :: t ++ l2, s2)
        rw [hrec]
        rfl

/-- C3: pushing `v1 … vn` (within the remaining capacity of a stack whose
values and types vectors have equal length) succeeds, and `n` subsequent
pops succeed and return `vn, …, v1`, each value loaded back at the type
recorded when it was pushed, leaving the top where it started. -/
theorem operandStack_lifo (vs : List LLVMValue) (s : OperandStack)
    (hlen : s.values.length = s.types.length)
    (hcap : s.topOfStack + vs.length ≤ s.types.length) :
    ∃ s', s.pushAll vs = some s' ∧
      OperandStack.popAll vs.length s' =
        some (vs.reverse, { s' with topOfStack := s.topOfStack }) := by
  induction vs generalizing s with
  | nil => exact ⟨s, rfl, rfl⟩
  | cons v rest ih =>
    have hv : s.topOfStack < s.values.length := by
      simp at hcap; omega
    have ht : s.topOfStack < s.types.length := by
      simp at hcap; omega
    have hpush := push_back_eq s v hv ht
    set s1 : OperandStack :=
      { s with
        values := s.values.set s.topOfStack (some v),
        types := s.types.set s.topOfStack (some v.ty),
        topOfStack := s.topOfStack + 1 } with hs1
    have hlen1 : s1.values.length = s1.types.length := by
      simp [hs1, hlen]
    have hcap1 : s1.topOfStack + rest.length ≤ s1.types.length := by
      simp [hs1]; simp at hcap; omega
    obtain ⟨s2, hpushAll, hpopAll⟩ := ih s1 hlen1 hcap1
    obtain ⟨p1, p2, p3, p4⟩ := pushAll_preserves rest s1 s2 hpushAll
    obtain ⟨q1, q2⟩ := p4 s.topOfStack (by simp [hs1])
    have hv2 : s2.values[s.topOfStack]? = some (some v) := by
      rw [q1]
      simp [hs1, List.getElem?_set_eq_of_lt, hv]
    have ht2 : s2.types[s.topOfStack]? = some (some v.ty) := by
      rw [q2]
      simp [hs1, List.getElem?_set_eq_of_lt, ht]
    refine ⟨s2, ?_, ?_⟩
    · unfold OperandStack.pushAll
      rw [hpush]
      exact hpushAll
    · have hmidtop : ({ s2 with topOfStack := s1.topOfStack } : OperandStack).topOfStack
          = s.topOfStack + 1 := by simp [hs1]
      have hpop1 : ({ s2 with topOfStack := s1.topOfStack } : OperandStack).pop_back
          = some (v, { s2 with topOfStack := s.topOfStack }) := by
        have := pop_back_eq { s2 with topOfStack := s1.topOfStack }
          s.topOfStack v v.ty hmidtop (by simpa using hv2) (by simpa using ht2)
        simpa [loadAs] using this
      have hone : OperandStack.popAll 1 { s2 with topOfStack := s1.topOfStack }
          = some ([v], { s2 with topOfStack := s.topOfStack }) := by
        unfold OperandStack.popAll
        rw [hpop1]
        rfl
      have := popAll_append rest.length 1 s2
        { s2 with topOfStack := s1.topOfStack }
        { s2 with topOfStack := s.topOfStack }
        rest.reverse [v] hpopAll hone
      simpa using this

/-- C3 witness: two pushes on a fresh stack of depth 2 pop in reverse
order with the pushed types. -/
theorem operandStack_lifo_witness :
    ∃ s', (OperandStack.init 2).pushAll
        [⟨LLVMType.i32, 7⟩, ⟨LLVMType.reference, 1⟩] = some s' ∧
      OperandStack.popAll 2 s' =
        some ([⟨LLVMType.reference, 1⟩, ⟨LLVMType.i32, 7⟩],
          { s' with topOfStack := 0 }) :=
  operandStack_lifo [⟨LLVMType.i32, 7⟩, ⟨LLVMType.reference, 1⟩]
    (OperandStack.init 2) (by decide) (by decide)

/-- C4: on a stack with `maxStack = 3`, after `push(i32 7); push(ref r)`,
saving the state, popping twice returns `(ref r, i32 7)`; restoring the
saved state and popping returns `ref r` again; and `restoreState` never
touches the slot storage. -/
theorem operandStack_save_restore_scenario (r : Nat) :
    ((do
      let s1 ← (OperandStack.init 3).push_back ⟨LLVMType.i32, 7⟩
      let s2 ← s1.push_back ⟨LLVMType.reference, r⟩
      let st := s2.saveState
      let (a, s3) ← s2.pop_back
      let (b, s4) ← s3.pop_back
      let s5 := s4.restoreState st
      let (c, _) ← s5.pop_back
      pure (a, b, c)) =
      some (⟨LLVMType.reference, r⟩, ⟨LLVMType.i32, 7⟩,
            ⟨LLVMType.reference, r⟩))
    ∧ ∀ (s : OperandStack) (st : StackState),
        (s.restoreState st).values = s.values :=
  ⟨rfl, fun _ _ => rfl⟩

/-- C5: `getHandlerState` returns the canonical exception-handler entry
state — a single reference-typed slot with top-of-stack 1 — for every
stack, independent of the current types and top. -/
theorem getHandlerState_canonical (s : OperandStack) :
    s.getHandlerState = ⟨[some LLVMType.reference], 1⟩ :=
  rfl

/-- C9 (code bug): `restoreState(getHandlerState())` on a stack with
`maxStack = 2` installs a types vector of length 1, not `maxStack`, so the
next push at top 1 indexes `m_types[1]` out of bounds and fails. -/
theorem handler_restore_shrinks_types :
    ((OperandStack.init 2).restoreState
        ((OperandStack.init 2).getHandlerState)).types.length = 1
    ∧ ((OperandStack.init 2).restoreState
        ((OperandStack.init 2).getHandlerState)).topOfStack = 1
    ∧ ((OperandStack.init 2).restoreState
        ((OperandStack.init 2).getHandlerState)).topOfStack < 2
    ∧ ((OperandStack.init 2).restoreState
        ((OperandStack.init 2).getHandlerState)).push_back
          ⟨LLVMType.i32, 5⟩ = none := by
  decide

/-- C10: `setHandlerStack(v)` (on a stack with non-empty vectors, as
`front()` requires) stores `v` and records its type in slot 0 only: the
top-of-stack and every other slot's stored value and recorded type are
unchanged. -/
theorem setHandlerStack_frame (s : OperandStack) (v : LLVMValue)
    (hv : s.values ≠ []) (ht : s.types ≠ []) :
    ∃ s', s.setHandlerStack v = some s' ∧
      s'.topOfStack = s.topOfStack ∧
      s'.values[0]? = some (some v) ∧
      s'.types[0]? = some (some v.ty) ∧
      ∀ i, 0 < i → s'.values[i]? = s.values[i]? ∧ s'.types[i]? = s.types[i]? := by
  obtain ⟨a, va, hva⟩ : ∃ a va, s.values = a :: va := by
    cases hvv : s.values with
    | nil => exact absurd hvv hv
    | cons a va => exact ⟨a, va, rfl⟩
  obtain ⟨b, vb, hvb⟩ : ∃ b vb, s.types = b :: vb := by
    cases hvt : s.types with
    | nil => exact absurd hvt ht
    | cons b vb => exact ⟨b, vb, rfl⟩
  refine ⟨{ s with
            values := s.values.set 0 (some v),
            types := s.types.set 0 (some v.ty) }, ?_, rfl, ?_, ?_, ?_⟩
  · unfold OperandStack.setHandlerStack
    rw [hva, hvb]
  · simp [hva]
  · simp [hvb]
  · intro i hi
    obtain ⟨j, rfl⟩ : ∃ j, i = j + 1 := ⟨i - 1, by omega⟩
    constructor
    · simp [hva]
    · simp [hvb]

/-- C10 witness: `setHandlerStack` on a fresh stack of depth 1. -/
theorem setHandlerStack_frame_witness :
    ∃ s', (OperandStack.init 1).setHandlerStack ⟨LLVMType.reference, 3⟩ = some s' ∧
      s'.topOfStack = (OperandStack.init 1).topOfStack ∧
      s'.values[0]? = some (some ⟨LLVMType.reference, 3⟩) ∧
      s'.types[0]? = some (some LLVMType.reference) ∧
      ∀ i, 0 < i → s'.values[i]? = (OperandStack.init 1).values[i]?
        ∧ s'.types[i]? = (OperandStack.init 1).types[i]? :=
  setHandlerStack_frame (OperandStack.init 1) ⟨LLVMType.reference, 3⟩
    (by decide) (by decide)

/-! ## Stub symbol mangling (ClassObjectStubMangling.hpp)

Only the header is available; the definitions of the `mangle*` functions,
`demangleStubSymbolName`, and the descriptor parsers live in translation
units outside the provided sources. They are modelled from the spec below:
the five symbol grammars of spec §3.3 with the descriptor grammar of spec
§3.1/§3.2, the demangler disambiguating field accesses from direct calls by
whether the descriptor after `:` starts with `(`, and returning `None`
(modelled as `monostate`) on anything else. -/

/-- The encoding letter of each base type (spec §3.1: Z B C S I J F D V). -/
def baseTypeChar : BaseType → Char
  | .Boolean => 'Z'
  | .Byte => 'B'
  | .Char => 'C'
  | .Short => 'S'
  | .Int => 'I'
  | .Float => 'F'
  | .Double => 'D'
  | .Long => 'J'
  | .Void => 'V'

/-- Canonical descriptor string of a field type (spec §3.1). -/
def printFieldType : FieldType → List Char
  | FieldType.base b => [baseTypeChar b]
  | FieldType.object n => 'L' :: n ++ [';']
  | FieldType.array c => '[' :: printFieldType c

/-- Concatenated descriptors of the parameter list. -/
def printParams : List FieldType → List Char
  | [] => []
  | d :: ds => printFieldType d ++ printParams ds

/-- Canonical descriptor string of a method type: `(P1…Pn)R` (spec §3.2). -/
def printMethodType (m : MethodType) : List Char :=
  '(' :: printParams m.parameters ++ ')' :: printFieldType m.returnType

/-- Modelled from the spec: the base type encoded by a single letter in a
field position (spec §3.1; `V` is rejected — Void is legal only as a method
return type). -/
def charBase (c : Char) : Option BaseType :=
  if c = 'Z' then some BaseTypeValues.Boolean
  else if c = 'B' then some BaseTypeValues.Byte
  else if c = 'C' then some BaseTypeValues.Char
  else if c = 'S' then some BaseTypeValues.Short
  else if c = 'I' then some BaseTypeValues.Int
  else if c = 'F' then some BaseTypeValues.Float
  else if c = 'D' then some BaseTypeValues.Double
  else if c = 'J' then some BaseTypeValues.Long
  else none

/-- Split a string at the first occurrence of `c`, returning the parts
before and after it; `none` when `c` does not occur. -/
def splitAtChar (c : Char) : List Char → Option (List Char × List Char)
  | [] => none
  | x :: xs =>
    if x = c then some ([], xs)
    else
      match splitAtChar c xs with
      | some (a, b) => some (x :: a, b)
      | none => none

/-- Modelled from the spec: recursive-descent parse of one field descriptor
(spec §3.1 grammar), returning the unconsumed remainder. Void is rejected in
field and array-component positions; an object type needs a non-empty class
name terminated by `;`. -/
def parseFieldTypeRest : List Char → Option (FieldType × List Char)
  | [] => none
  | c :: r =>
    if c = 'L' then
      match splitAtChar ';' r with
      | some (n, r') => if n = [] then none else some (FieldType.object n, r')
      | none => none
    else if c = '[' then
      match parseFieldTypeRest r with
      | some (d, r') => some (FieldType.array d, r')
      | none => none
    else
      match charBase c with
      | some b => some (FieldType.base b, r)
      | none => none

/-- Modelled from the spec: a return descriptor is a field descriptor or
`V` (spec §3.2: the return may be Void). -/
def parseReturnRest : List Char → Option (FieldType × List Char)
  | [] => none
  | c :: r =>
    if c = 'V' then some (FieldType.base BaseTypeValues.Void, r)
    else parseFieldTypeRest (c :: r)

/-- Modelled from the spec: the parameter descriptors up to the closing
`)`. The fuel bounds the number of parameters; each parameter consumes at
least one character, so `s.length` fuel always suffices. -/
def parseParamsRest : Nat → List Char → Option (List FieldType × List Char)
  | _, [] => none
  | fuel, c :: r =>
    if c = ')' then some ([], r)
    else
      match fuel, parseFieldTypeRest (c :: r) with
      | _, none => none
      | 0, some _ => none
      | fuel' + 1, some (d, r1) =>
        match parseParamsRest fuel' r1 with
        | some (ds, r2) => some (d :: ds, r2)
        | none => none

/-- Modelled from the spec: parse of a full method descriptor
`( {FieldType} ) ReturnType` (spec §3.2), consuming the whole string. -/
def parseMethodTypeFull : List Char → Option MethodType
  | [] => none
  | c :: r =>
    if c = '(' then
      match parseParamsRest r.length r with
      | some (ps, r1) =>
        match parseReturnRest r1 with
        | some (ret, r2) => if r2 = [] then some ⟨ps, ret⟩ else none
        | none => none
      | none => none
    else none

/-- Modelled from the spec: parse of a full field descriptor, consuming the
whole string. -/
def parseFieldTypeFull (s : List Char) : Option FieldType :=
  match parseFieldTypeRest s with
  | some (d, r) => if r = [] then some d else none
  | none => none

/-- `MethodResolution` from ClassObjectStubMangling.hpp. -/
inductive MethodResolution
  | Virtual
  | Interface
  | Special
deriving DecidableEq

/-- `"Virtual Call to "`. -/
def vPre : List Char :=
  ['V', 'i', 'r', 't', 'u', 'a', 'l', ' ', 'C', 'a', 'l', 'l', ' ', 't', 'o', ' ']

/-- `"Interface Call to "`. -/
def iPre : List Char :=
  ['I', 'n', 't', 'e', 'r', 'f', 'a', 'c', 'e', ' ', 'C', 'a', 'l', 'l', ' ', 't', 'o', ' ']

/-- `"Special Call to "`. -/
def spPre : List Char :=
  ['S', 'p', 'e', 'c', 'i', 'a', 'l', ' ', 'C', 'a', 'l', 'l', ' ', 't', 'o', ' ']

/-- `"Static Call to "`. -/
def stPre : List Char :=
  ['S', 't', 'a', 't', 'i', 'c', ' ', 'C', 'a', 'l', 'l', ' ', 't', 'o', ' ']

/-- `"Load "`. -/
def ldPre : List Char := ['L', 'o', 'a', 'd', ' ']

/-- The textual tag of each method-resolution kind (spec §3.3). -/
def resolutionTag : MethodResolution → List Char
  | MethodResolution.Virtual => vPre
  | MethodResolution.Interface => iPre
  | MethodResolution.Special => spPre

/-- Modelled from the spec: `<direct-call> ::= <class-name> '.'
<method-name> ':' <descriptor>`. -/
def mangleDirectMethodCall (className methodName : List Char)
    (descriptor : MethodType) : List Char :=
  className ++ '.' :: methodName ++ ':' :: printMethodType descriptor

/-- Modelled from the spec: `<field-access> ::= <class-name> '.'
<field-name> ':' <descriptor>`. -/
def mangleFieldAccess (className fieldName : List Char)
    (descriptor : FieldType) : List Char :=
  className ++ '.' :: fieldName ++ ':' :: printFieldType descriptor

/-- Modelled from the spec: `<method-resolution-call> ::=
<method-resolution> <direct-call>`. -/
def mangleMethodResolutionCall (resolution : MethodResolution)
    (className methodName : List Char) (descriptor : MethodType) : List Char :=
  resolutionTag resolution ++ mangleDirectMethodCall className methodName descriptor

/-- Modelled from the spec: `<static-call> ::= 'Static Call to '
<direct-call>`. -/
def mangleStaticCall (className methodName : List Char)
    (descriptor : MethodType) : List Char :=
  stPre ++ mangleDirectMethodCall className methodName descriptor

/-- Modelled from the spec: `<class-object-access> ::= 'Load '
<descriptor>`. -/
def mangleClassObjectAccess (descriptor : FieldType) : List Char :=
  ldPre ++ printFieldType descriptor

/-- `DemangledVariant`: `monostate` is the `None` result; the other
alternatives mirror `DemangledFieldAccess`, `DemangledMethodResolutionCall`,
`DemangledStaticCall`, and the bare `FieldType` of a class-object load. -/
inductive DemangledVariant
  | monostate
  | fieldAccess (className fieldName : List Char) (descriptor : FieldType)
  | methodResolutionCall (resolution : MethodResolution)
      (className methodName : List Char) (descriptor : MethodType)
  | staticCall (className methodName : List Char) (descriptor : MethodType)
  | classObjectLoad (descriptor : FieldType)
deriving DecidableEq

/-- Strip a leading pattern, returning the rest. -/
def dropLead : List Char → List Char → Option (List Char)
  | [], s => some s
  | _ :: _, [] => none
  | p :: ps, c :: cs => if p = c then dropLead ps cs else none

/-- Modelled from the spec: parse `<class-name> '.' <method-name> ':'
<method-descriptor>` after a resolution tag, splitting at the first `.` and
the first `:` (class names are `/`-separated identifiers and contain
neither). -/
def parseCallBody (s : List Char) :
    Option (List Char × List Char × MethodType) :=
  match splitAtChar '.' s with
  | some (cls, r1) =>
    match splitAtChar ':' r1 with
    | some (m, desc) =>
      match parseMethodTypeFull desc with
      | some d => some (cls, m, d)
      | none => none
    | none => none
  | none => none

/-- Modelled from the spec: an untagged symbol is a field access when the
descriptor after `:` does not start with `(`; a direct-call symbol (method
descriptor after `:`) is not demangled (spec §3.3 ambiguity policy). -/
def demangleFieldOrDirect (s : List Char) : DemangledVariant :=
  match splitAtChar '.' s with
  | some (cls, r1) =>
    match splitAtChar ':' r1 with
    | some (f, desc) =>
      match desc with
      | [] => DemangledVariant.monostate
      | c :: t =>
        if c = '(' then DemangledVariant.monostate
        else
          match parseFieldTypeFull (c :: t) with
          | some d => DemangledVariant.fieldAccess cls f d
          | none => DemangledVariant.monostate
    | none => DemangledVariant.monostate
  | none => DemangledVariant.monostate

/-- Modelled from the spec: `demangleStubSymbolName` recognizes the five
prefixed grammars of spec §3.3, then field accesses, and returns
`monostate` (std::monostate) on everything else, including direct calls. -/
def demangleStubSymbolName (s : List Char) : DemangledVariant :=
  match dropLead vPre s with
  | some r =>
    (match parseCallBody r with
     | some (cls, m, d) =>
       DemangledVariant.methodResolutionCall MethodResolution.Virtual cls m d
     | none => DemangledVariant.monostate)
  | none =>
    match dropLead iPre s with
    | some r =>
      (match parseCallBody r with
       | some (cls, m, d) =>
         DemangledVariant.methodResolutionCall MethodResolution.Interface cls m d
       | none => DemangledVariant.monostate)
    | none =>
      match dropLead spPre s with
      | some r =>
        (match parseCallBody r with
         | some (cls, m, d) =>
           DemangledVariant.methodResolutionCall MethodResolution.Special cls m d
         | none => DemangledVariant.monostate)
      | none =>
        match dropLead stPre s with
        | some r =>
          (match parseCallBody r with
           | some (cls, m, d) => DemangledVariant.staticCall cls m d
           | none => DemangledVariant.monostate)
        | none =>
          match dropLead ldPre s with
          | some r =>
            (match parseFieldTypeFull r with
             | some d => DemangledVariant.classObjectLoad d
             | none => DemangledVariant.monostate)
          | none => demangleFieldOrDirect s

/-- The mangling constructor matching each non-`monostate` demangling
result (spec §4.2). -/
def remangle : DemangledVariant → List Char
  | DemangledVariant.monostate => []
  | DemangledVariant.fieldAccess cls f d => mangleFieldAccess cls f d
  | DemangledVariant.methodResolutionCall res cls m d =>
    mangleMethodResolutionCall res cls m d
  | DemangledVariant.staticCall cls m d => mangleStaticCall cls m d
  | DemangledVariant.classObjectLoad d => mangleClassObjectAccess d

/-- A character legal inside a class, method, or field name: not the space
of a grammar tag, not the `.`/`:` separators, not the `;` object-name
terminator (class names are `/`-separated identifiers, spec §3.1). -/
def validNameChar (c : Char) : Bool :=
  !(c = ' ' || c = '.' || c = ':' || c = ';')

/-- A legal class/method/field name: non-empty and of legal characters. -/
def validName (s : List Char) : Bool :=
  !s.isEmpty && s.all validNameChar

/-- Well-formed field descriptor: no Void, object names legal (spec §3.1). -/
def wfField : FieldType → Bool
  | FieldType.base b => !(baseTypeEq b BaseTypeValues.Void)
  | FieldType.object n => validName n
  | FieldType.array c => wfField c

/-- Well-formed return descriptor: a field descriptor or Void (spec §3.2). -/
def wfReturn : FieldType → Bool
  | FieldType.base BaseTypeValues.Void => true
  | d => wfField d

/-- Well-formed method descriptor (spec §3.2). -/
def wfMethod (m : MethodType) : Bool :=
  m.parameters.all wfField && wfReturn m.returnType

theorem dropLead_self (p : List Char) : ∀ s, dropLead p (p ++ s) = some s := by
  induction p with
  | nil => intro s; rfl
  | cons c cs ih => intro s; simp [dropLead, ih]

theorem dropLead_sound (p : List Char) :
    ∀ s r, dropLead p s = some r → s = p ++ r := by
  induction p with
  | nil =>
    intro s r h
    simpa [dropLead] using h
  | cons c cs ih =>
    intro s r h
    cases s with
    | nil => cases h
    | cons x xs =>
      unfold dropLead at h
      by_cases hc : c = x
      · rw [if_pos hc] at h
        subst hc
        rw [ih xs r h]
        rfl
      · rw [if_neg hc] at h; cases h

theorem dropLead_none_of_space (p s : List Char)
    (hp : ' ' ∈ p) (hs : ' ' ∉ s) : dropLead p s = none := by
  cases h : dropLead p s with
  | none => rfl
  | some r =>
    exact absurd (dropLead_sound p s r h ▸ List.mem_append_left r hp) hs

theorem splitAtChar_self (c : Char) (l : List Char) :
    ∀ r, c ∉ l → splitAtChar c (l ++ c :: r) = some (l, r) := by
  induction l with
  | nil => intro r _; simp [splitAtChar]
  | cons x xs ih =>
    intro r hc
    have hx : x ≠ c := fun h => hc (h ▸ List.mem_cons_self x xs)
    have hxs : c ∉ xs := fun h => hc (List.mem_cons_of_mem x h)
    show (if x = c then some ([], xs ++ c :: r)
      else match splitAtChar c (xs ++ c :: r) with
        | some (a, b) => some (x :: a, b)
        | none => none) = some (x :: xs, r)
    rw [if_neg hx, ih r hxs]

theorem splitAtChar_sound (c : Char) :
    ∀ s a b, splitAtChar c s = some (a, b) → s = a ++ c :: b ∧ c ∉ a := by
  intro s
  induction s with
  | nil => intro a b h; cases h
  | cons x xs ih =>
    intro a b h
    unfold splitAtChar at h
    by_cases hx : x = c
    · rw [if_pos hx] at h
      have h2 : (([] : List Char), xs) = (a, b) := Option.some.inj h
      cases h2
      exact ⟨by simp [hx], by simp⟩
    · rw [if_neg hx] at h
      cases hsp : splitAtChar c xs with
      | none => rw [hsp] at h; cases h
      | some p =>
        rw [hsp] at h
        obtain ⟨a1, b1⟩ := p
        have h2 : (x :: a1, b1) = (a, b) := Option.some.inj h
        cases h2
        obtain ⟨he, hm⟩ := ih a1 b hsp
        constructor
        · simp [he]
        · intro hmem
          rcases List.mem_cons.mp hmem with hm1 | hm1
          · exact hx hm1.symm
          · exact hm hm1

theorem baseTypeChar_facts (b : BaseType) (hb : b ≠ BaseTypeValues.Void) :
    charBase (baseTypeChar b) = some b ∧
    baseTypeChar b ≠ 'L' ∧ baseTypeChar b ≠ '[' ∧ baseTypeChar b ≠ '(' ∧
    baseTypeChar b ≠ ')' ∧ baseTypeChar b ≠ 'V' ∧ baseTypeChar b ≠ ' ' := by
  cases b <;> first
    | exact absurd rfl hb
    | exact ⟨rfl, by decide, by decide, by decide, by decide, by decide, by decide⟩

theorem charBase_sound (c : Char) (b : BaseType) (h : charBase c = some b) :
    baseTypeChar b = c ∧ b ≠ BaseTypeValues.Void := by
  unfold charBase at h
  split_ifs at h with h1 h2 h3 h4 h5 h6 h7 h8
  all_goals cases h
  all_goals subst_vars
  all_goals exact ⟨rfl, by decide⟩

theorem wfField_base_ne_void (b : BaseType)
    (h : wfField (FieldType.base b) = true) : b ≠ BaseTypeValues.Void := by
  intro hb
  subst hb
  simp [wfField, baseTypeEq, BaseTypeValues.enumVal] at h

theorem validName_facts (s : List Char) (h : validName s = true) :
    s ≠ [] ∧ ∀ c ∈ s, c ≠ ' ' ∧ c ≠ '.' ∧ c ≠ ':' ∧ c ≠ ';' := by
  unfold validName at h
  obtain ⟨h1, h2⟩ := Bool.and_eq_true_iff.mp h
  constructor
  · intro hs; subst hs; simp at h1
  · intro c hc
    have hall := List.all_eq_true.mp h2 c hc
    have hs : (c = ' ' ∨ c = '.' ∨ c = ':' ∨ c = ';') → False := by
      intro hor
      rcases hor with h0 | h0 | h0 | h0 <;> simp [validNameChar, h0] at hall
    exact ⟨fun h0 => hs (Or.inl h0), fun h0 => hs (Or.inr (Or.inl h0)),
           fun h0 => hs (Or.inr (Or.inr (Or.inl h0))),
           fun h0 => hs (Or.inr (Or.inr (Or.inr h0)))⟩

theorem printFieldType_head (d : FieldType) (h : wfField d = true) :
    ∃ c t, printFieldType d = c :: t ∧
      c ≠ '(' ∧ c ≠ ')' ∧ c ≠ 'V' ∧ c ≠ ' ' := by
  cases d with
  | base b =>
    obtain ⟨_, _, _, h3, h4, h5, h6⟩ :=
      baseTypeChar_facts b (wfField_base_ne_void b h)
    exact ⟨baseTypeChar b, [], rfl, h3, h4, h5, h6⟩
  | object n => exact ⟨'L', n ++ [';'], rfl, by decide, by decide, by decide, by decide⟩
  | array c => exact ⟨'[', printFieldType c, rfl, by decide, by decide, by decide, by decide⟩

theorem space_not_mem_printFieldType (d : FieldType) (h : wfField d = true) :
    ' ' ∉ printFieldType d := by
  induction d with
  | base b =>
    obtain ⟨_, _, _, _, _, _, h6⟩ :=
      baseTypeChar_facts b (wfField_base_ne_void b h)
    intro hc
    have hc' : ' ' ∈ [baseTypeChar b] := hc
    exact h6 (List.mem_singleton.mp hc').symm
  | object n =>
    have hn := (validName_facts n (by simpa [wfField] using h)).2
    intro hc
    have hc' : ' ' ∈ 'L' :: (n ++ [';']) := hc
    rcases List.mem_cons.mp hc' with h0 | h0
    · exact absurd h0 (by decide)
    · rcases List.mem_append.mp h0 with h1 | h1
      · exact (hn ' ' h1).1 rfl
      · exact absurd (List.mem_singleton.mp h1) (by decide)
  | array cT ih =>
    have ihh := ih (by simpa [wfField] using h)
    intro hc
    have hc' : ' ' ∈ '[' :: printFieldType cT := hc
    rcases List.mem_cons.mp hc' with h0 | h0
    · exact absurd h0 (by decide)
    · exact ihh h0

theorem space_not_mem_printParams (ps : List FieldType)
    (h : ps.all wfField = true) : ' ' ∉ printParams ps := by
  induction ps with
  | nil => simp [printParams]
  | cons d ds ih =>
    rw [List.all_cons] at h
    obtain ⟨h1, h2⟩ := Bool.and_eq_true_iff.mp h
    intro hc
    have hc' : ' ' ∈ printFieldType d ++ printParams ds := hc
    rcases List.mem_append.mp hc' with h0 | h0
    · exact space_not_mem_printFieldType d h1 h0
    · exact ih h2 h0

theorem wfReturn_to_wfField (d : FieldType)
    (h : wfReturn d = true) (hv : d ≠ FieldType.base BaseTypeValues.Void) :
    wfField d = true := by
  cases d with
  | base b =>
    cases b <;> first
      | exact absurd rfl hv
      | exact h
  | object n => exact h
  | array c => exact h

theorem space_not_mem_printReturn (d : FieldType) (h : wfReturn d = true) :
    ' ' ∉ printFieldType d := by
  by_cases hv : d = FieldType.base BaseTypeValues.Void
  · subst hv
    intro hc
    have hc' : ' ' ∈ ['V'] := hc
    exact absurd (List.mem_singleton.mp hc') (by decide)
  · exact space_not_mem_printFieldType d (wfReturn_to_wfField d h hv)

theorem space_not_mem_printMethodType (m : MethodType)
    (h : wfMethod m = true) : ' ' ∉ printMethodType m := by
  obtain ⟨h1, h2⟩ := Bool.and_eq_true_iff.mp h
  intro hc
  have hc' : ' ' ∈ '(' ::
      (printParams m.parameters ++ ')' :: printFieldType m.returnType) := hc
  rcases List.mem_cons.mp hc' with h0 | h0
  · exact absurd h0 (by decide)
  rcases List.mem_append.mp h0 with h3 | h3
  · exact space_not_mem_printParams m.parameters h1 h3
  rcases List.mem_cons.mp h3 with h4 | h4
  · exact absurd h4 (by decide)
  exact space_not_mem_printReturn m.returnType h2 h4

theorem parseFieldTypeRest_print (d : FieldType) (h : wfField d = true) :
    ∀ rest, parseFieldTypeRest (printFieldType d ++ rest) = some (d, rest) := by
  induction d with
  | base b =>
    obtain ⟨h1, h2, h3, _, _, _, _⟩ :=
      baseTypeChar_facts b (wfField_base_ne_void b h)
    intro rest
    show parseFieldTypeRest (baseTypeChar b :: rest) = some (FieldType.base b, rest)
    simp only [parseFieldTypeRest]
    rw [if_neg h2, if_neg h3, h1]
  | object n =>
    have hv := validName_facts n (by simpa [wfField] using h)
    have hsemi : ';' ∉ n := fun hm => (hv.2 ';' hm).2.2.2 rfl
    intro rest
    have he : printFieldType (FieldType.object n) ++ rest
        = 'L' :: (n ++ ';' :: rest) := by
      simp [printFieldType]
    rw [he]
    simp [parseFieldTypeRest, splitAtChar_self ';' n rest hsemi, hv.1]
  | array cT ih =>
    intro rest
    have he : printFieldType (FieldType.array cT) ++ rest
        = '[' :: (printFieldType cT ++ rest) := by
      simp [printFieldType]
    rw [he]
    simp [parseFieldTypeRest, ih (by simpa [wfField] using h) rest]

theorem parseReturnRest_print (d : FieldType) (h : wfReturn d = true) :
    ∀ rest, parseReturnRest (printFieldType d ++ rest) = some (d, rest) := by
  intro rest
  by_cases hv : d = FieldType.base BaseTypeValues.Void
  · subst hv
    rfl
  · have hf := wfReturn_to_wfField d h hv
    obtain ⟨c, t, hct, _, _, hcv, _⟩ := printFieldType_head d hf
    have he : printFieldType d ++ rest = c :: (t ++ rest) := by
      simp [hct]
    rw [he]
    simp only [parseReturnRest]
    rw [if_neg hcv, ← List.cons_append, ← hct]
    exact parseFieldTypeRest_print d hf rest

theorem parseParamsRest_print (ps : List FieldType) :
    ∀ fuel rest, ps.all wfField = true → ps.length ≤ fuel →
      parseParamsRest fuel (printParams ps ++ ')' :: rest) = some (ps, rest) := by
  induction ps with
  | nil =>
    intro fuel rest _ _
    show parseParamsRest fuel (')' :: rest) = some ([], rest)
    cases fuel <;> rfl
  | cons d ds ih =>
    intro fuel rest hwf hlen
    rw [List.all_cons] at hwf
    obtain ⟨h1, h2⟩ := Bool.and_eq_true_iff.mp hwf
    obtain ⟨c, t, hct, _, hc2, _, _⟩ := printFieldType_head d h1
    obtain ⟨fuel', rfl⟩ : ∃ f, fuel = f + 1 := by
      cases fuel with
      | zero => simp at hlen
      | succ f => exact ⟨f, rfl⟩
    have he : printParams (d :: ds) ++ ')' :: rest
        = c :: (t ++ (printParams ds ++ ')' :: rest)) := by
      simp [printParams, hct]
    rw [he]
    have hp : parseFieldTypeRest (c :: (t ++ (printParams ds ++ ')' :: rest)))
        = some (d, printParams ds ++ ')' :: rest) := by
      have hpr := parseFieldTypeRest_print d h1 (printParams ds ++ ')' :: rest)
      rw [hct] at hpr
      simpa using hpr
    rw [parseParamsRest.eq_def]
    simp only [hc2, if_false]
    rw [hp]
    simp only [ih fuel' rest h2 (by simp at hlen; omega)]

theorem printParams_length (ps : List FieldType) (h : ps.all wfField = true) :
    ps.length ≤ (printParams ps).length := by
  induction ps with
  | nil => simp [printParams]
  | cons d ds ih =>
    rw [List.all_cons] at h
    obtain ⟨h1, h2⟩ := Bool.and_eq_true_iff.mp h
    obtain ⟨c, t, hct, _, _, _, _⟩ := printFieldType_head d h1
    have := ih h2
    simp [printParams, hct]
    omega

theorem parseMethodTypeFull_print (m : MethodType) (h : wfMethod m = true) :
    parseMethodTypeFull (printMethodType m) = some m := by
  obtain ⟨h1, h2⟩ := Bool.and_eq_true_iff.mp h
  have hfuel : m.parameters.length ≤
      (printParams m.parameters ++ ')' :: printFieldType m.returnType).length := by
    have := printParams_length m.parameters h1
    simp
    omega
  have hps := parseParamsRest_print m.parameters
    (printParams m.parameters ++ ')' :: printFieldType m.returnType).length
    (printFieldType m.returnType) h1 hfuel
  have hret := parseReturnRest_print m.returnType h2 []
  rw [List.append_nil] at hret
  show (match parseParamsRest
      (printParams m.parameters ++ ')' :: printFieldType m.returnType).length
      (printParams m.parameters ++ ')' :: printFieldType m.returnType) with
    | some (ps, r1) =>
      match parseReturnRest r1 with
      | some (ret, r2) => if r2 = [] then some ⟨ps, ret⟩ else none
      | none => none
    | none => none) = some m
  rw [hps]
  show (match parseReturnRest (printFieldType m.returnType) with
    | some (ret, r2) => if r2 = [] then some ⟨m.parameters, ret⟩ else none
    | none => none) = some m
  rw [hret]
  rfl

theorem parseFieldTypeFull_print (d : FieldType) (h : wfField d = true) :
    parseFieldTypeFull (printFieldType d) = some d := by
  unfold parseFieldTypeFull
  have hp := parseFieldTypeRest_print d h []
  rw [List.append_nil] at hp
  rw [hp]
  rfl

theorem parseFieldTypeRest_sound :
    ∀ s d r, parseFieldTypeRest s = some (d, r) → s = printFieldType d ++ r := by
  intro s
  induction s with
  | nil => intro d r h; cases h
  | cons c t ih =>
    intro d r h
    simp only [parseFieldTypeRest] at h
    by_cases hL : c = 'L'
    · rw [if_pos hL] at h
      cases hsp : splitAtChar ';' t with
      | none => rw [hsp] at h; cases h
      | some p =>
        obtain ⟨n, r'⟩ := p
        rw [hsp] at h
        have h' : (if n = [] then none else some (FieldType.object n, r'))
            = some (d, r) := h
        by_cases hn : n = []
        · rw [if_pos hn] at h'; cases h'
        · rw [if_neg hn] at h'
          have h2 := Option.some.inj h'
          obtain ⟨hd, hr⟩ : FieldType.object n = d ∧ r' = r :=
            ⟨congrArg Prod.fst h2, congrArg Prod.snd h2⟩
          rw [← hd, ← hr]
          obtain ⟨he, _⟩ := splitAtChar_sound ';' t n r' hsp
          subst hL
          simp [printFieldType, he]
    · rw [if_neg hL] at h
      by_cases hA : c = '['
      · rw [if_pos hA] at h
        cases hp : parseFieldTypeRest t with
        | none => rw [hp] at h; cases h
        | some p =>
          obtain ⟨d1, r1⟩ := p
          rw [hp] at h
          have h2 := Option.some.inj h
          obtain ⟨hd, hr⟩ : FieldType.array d1 = d ∧ r1 = r :=
            ⟨congrArg Prod.fst h2, congrArg Prod.snd h2⟩
          rw [← hd, ← hr]
          subst hA
          simp [printFieldType, ih d1 r1 hp]
      · rw [if_neg hA] at h
        cases hb : charBase c with
        | none => rw [hb] at h; cases h
        | some b =>
          rw [hb] at h
          have h2 := Option.some.inj h
          obtain ⟨hd, hr⟩ : FieldType.base b = d ∧ t = r :=
            ⟨congrArg Prod.fst h2, congrArg Prod.snd h2⟩
          rw [← hd, ← hr]
          obtain ⟨hbc, _⟩ := charBase_sound c b hb
          simp [printFieldType, hbc]

theorem parseReturnRest_sound (s : List Char) (d : FieldType) (r : List Char)
    (h : parseReturnRest s = some (d, r)) : s = printFieldType d ++ r := by
  cases s with
  | nil => cases h
  | cons c t =>
    simp only [parseReturnRest] at h
    by_cases hv : c = 'V'
    · rw [if_pos hv] at h
      have h2 := Option.some.inj h
      obtain ⟨hd, hr⟩ : FieldType.base BaseTypeValues.Void = d ∧ t = r :=
        ⟨congrArg Prod.fst h2, congrArg Prod.snd h2⟩
      rw [← hd, ← hr]
      simp [printFieldType, baseTypeChar, hv]
    · rw [if_neg hv] at h
      exact parseFieldTypeRest_sound (c :: t) d r h

theorem parseParamsRest_sound :
    ∀ fuel s ps r, parseParamsRest fuel s = some (ps, r) →
      s = printParams ps ++ ')' :: r := by
  intro fuel
  induction fuel with
  | zero =>
    intro s ps r h
    cases s with
    | nil => cases h
    | cons c t =>
      by_cases hc : c = ')'
      · subst hc
        have h' : (some ([], t) : Option (List FieldType × List Char))
            = some (ps, r) := h
        have h2 : (([] : List FieldType), t) = (ps, r) := Option.some.inj h'
        cases h2
        simp [printParams]
      · rw [parseParamsRest.eq_def] at h
        simp only [hc, if_false] at h
        cases hp : parseFieldTypeRest (c :: t) with
        | none => simp only [hp] at h; cases h
        | some p =>
          obtain ⟨d1, r1⟩ := p
          simp only [hp] at h
          cases h
  | succ fuel' ih =>
    intro s ps r h
    cases s with
    | nil => cases h
    | cons c t =>
      by_cases hc : c = ')'
      · subst hc
        have h' : (some ([], t) : Option (List FieldType × List Char))
            = some (ps, r) := h
        have h2 : (([] : List FieldType), t) = (ps, r) := Option.some.inj h'
        cases h2
        simp [printParams]
      · rw [parseParamsRest.eq_def] at h
        simp only [hc, if_false] at h
        cases hp : parseFieldTypeRest (c :: t) with
        | none => simp only [hp] at h; cases h
        | some p =>
          obtain ⟨d1, r1⟩ := p
          simp only [hp] at h
          cases hq : parseParamsRest fuel' r1 with
          | none => simp only [hq] at h; cases h
          | some q =>
            obtain ⟨ds1, r2⟩ := q
            simp only [hq] at h
            have h2 := Option.some.inj h
            obtain ⟨hd, hr⟩ : d1 :: ds1 = ps ∧ r2 = r :=
              ⟨congrArg Prod.fst h2, congrArg Prod.snd h2⟩
            rw [← hd, ← hr]
            have hs1 := parseFieldTypeRest_sound (c :: t) d1 r1 hp
            have hs2 := ih r1 ds1 r2 hq
            rw [hs1, hs2]
            simp [printParams]

theorem parseMethodTypeFull_sound (s : List Char) (m : MethodType)
    (h : parseMethodTypeFull s = some m) : s = printMethodType m := by
  cases s with
  | nil => cases h
  | cons c t =>
    simp only [parseMethodTypeFull] at h
    by_cases hc : c = '('
    · rw [if_pos hc] at h
      cases hps : parseParamsRest t.length t with
      | none => rw [hps] at h; cases h
      | some p =>
        obtain ⟨ps, r1⟩ := p
        simp only [hps] at h
        cases hret : parseReturnRest r1 with
        | none => simp only [hret] at h; cases h
        | some q =>
          obtain ⟨ret, r2⟩ := q
          simp only [hret] at h
          by_cases hr2 : r2 = []
          · subst hr2
            rw [if_pos rfl] at h
            have h2 : (⟨ps, ret⟩ : MethodType) = m := Option.some.inj h
            subst h2
            have hs1 := parseParamsRest_sound t.length t ps r1 hps
            have hs2 := parseReturnRest_sound r1 ret [] hret
            rw [List.append_nil] at hs2
            subst hc
            simp [printMethodType, hs1, hs2]
          · rw [if_neg hr2] at h
            cases h
    · rw [if_neg hc] at h
      cases h

theorem parseFieldTypeFull_sound (s : List Char) (d : FieldType)
    (h : parseFieldTypeFull s = some d) : s = printFieldType d := by
  unfold parseFieldTypeFull at h
  cases hp : parseFieldTypeRest s with
  | none => rw [hp] at h; cases h
  | some p =>
    obtain ⟨d1, r⟩ := p
    simp only [hp] at h
    by_cases hr : r = []
    · subst hr
      rw [if_pos rfl] at h
      have h2 : d1 = d := Option.some.inj h
      subst h2
      have := parseFieldTypeRest_sound s d1 [] hp
      simpa using this
    · rw [if_neg hr] at h
      cases h

theorem parseCallBody_sound (s cls m : List Char) (d : MethodType)
    (h : parseCallBody s = some (cls, m, d)) :
    s = cls ++ '.' :: m ++ ':' :: printMethodType d := by
  unfold parseCallBody at h
  cases h1 : splitAtChar '.' s with
  | none => rw [h1] at h; cases h
  | some p =>
    obtain ⟨cls1, r1⟩ := p
    simp only [h1] at h
    cases h2 : splitAtChar ':' r1 with
    | none => simp only [h2] at h; cases h
    | some q =>
      obtain ⟨m1, desc⟩ := q
      simp only [h2] at h
      cases h3 : parseMethodTypeFull desc with
      | none => simp only [h3] at h; cases h
      | some d1 =>
        simp only [h3] at h
        obtain ⟨rfl, rfl, rfl⟩ : cls1 = cls ∧ m1 = m ∧ d1 = d := by
          simpa using h
        obtain ⟨he1, _⟩ := splitAtChar_sound '.' s cls1 r1 h1
        obtain ⟨he2, _⟩ := splitAtChar_sound ':' r1 m1 desc h2
        have he3 := parseMethodTypeFull_sound desc d1 h3
        rw [he1, he2, he3]
        simp

theorem parseCallBody_print (cls m : List Char) (d : MethodType)
    (hcls : validName cls = true) (hm : validName m = true)
    (hd : wfMethod d = true) :
    parseCallBody (cls ++ '.' :: m ++ ':' :: printMethodType d)
      = some (cls, m, d) := by
  unfold parseCallBody
  have hdot : '.' ∉ cls := fun hmem =>
    ((validName_facts cls hcls).2 '.' hmem).2.1 rfl
  have hcolon : ':' ∉ m := fun hmem =>
    ((validName_facts m hm).2 ':' hmem).2.2.1 rfl
  simp only [List.append_assoc, List.cons_append, List.singleton_append,
    splitAtChar_self '.' cls (m ++ ':' :: printMethodType d) hdot,
    splitAtChar_self ':' m (printMethodType d) hcolon,
    parseMethodTypeFull_print d hd]

theorem demangle_vPre_eval (body cls m : List Char) (d : MethodType)
    (h : parseCallBody body = some (cls, m, d)) :
    demangleStubSymbolName (vPre ++ body) =
      DemangledVariant.methodResolutionCall MethodResolution.Virtual cls m d := by
  unfold demangleStubSymbolName
  simp only [dropLead_self vPre body, h]

theorem demangle_iPre_eval (body cls m : List Char) (d : MethodType)
    (h : parseCallBody body = some (cls, m, d)) :
    demangleStubSymbolName (iPre ++ body) =
      DemangledVariant.methodResolutionCall MethodResolution.Interface cls m d := by
  unfold demangleStubSymbolName
  simp only [show dropLead vPre (iPre ++ body) = none from rfl,
    dropLead_self iPre body, h]

theorem demangle_spPre_eval (body cls m : List Char) (d : MethodType)
    (h : parseCallBody body = some (cls, m, d)) :
    demangleStubSymbolName (spPre ++ body) =
      DemangledVariant.methodResolutionCall MethodResolution.Special cls m d := by
  unfold demangleStubSymbolName
  simp only [show dropLead vPre (spPre ++ body) = none from rfl,
    show dropLead iPre (spPre ++ body) = none from rfl,
    dropLead_self spPre body, h]

theorem demangle_stPre_eval (body cls m : List Char) (d : MethodType)
    (h : parseCallBody body = some (cls, m, d)) :
    demangleStubSymbolName (stPre ++ body) =
      DemangledVariant.staticCall cls m d := by
  unfold demangleStubSymbolName
  simp only [show dropLead vPre (stPre ++ body) = none from rfl,
    show dropLead iPre (stPre ++ body) = none from rfl,
    show dropLead spPre (stPre ++ body) = none from rfl,
    dropLead_self stPre body, h]

theorem demangle_ldPre_eval (body : List Char) (d : FieldType)
    (h : parseFieldTypeFull body = some d) :
    demangleStubSymbolName (ldPre ++ body) =
      DemangledVariant.classObjectLoad d := by
  unfold demangleStubSymbolName
  simp only [show dropLead vPre (ldPre ++ body) = none from rfl,
    show dropLead iPre (ldPre ++ body) = none from rfl,
    show dropLead spPre (ldPre ++ body) = none from rfl,
    show dropLead stPre (ldPre ++ body) = none from rfl,
    dropLead_self ldPre body, h]

theorem demangle_noTag (s : List Char) (hs : ' ' ∉ s) :
    demangleStubSymbolName s = demangleFieldOrDirect s := by
  unfold demangleStubSymbolName
  rw [dropLead_none_of_space vPre s (by decide) hs,
    dropLead_none_of_space iPre s (by decide) hs,
    dropLead_none_of_space spPre s (by decide) hs,
    dropLead_none_of_space stPre s (by decide) hs,
    dropLead_none_of_space ldPre s (by decide) hs]

theorem demangleFieldOrDirect_field (cls f : List Char) (d : FieldType)
    (hcls : validName cls = true) (hf : validName f = true)
    (hd : wfField d = true) :
    demangleFieldOrDirect (mangleFieldAccess cls f d)
      = DemangledVariant.fieldAccess cls f d := by
  unfold demangleFieldOrDirect mangleFieldAccess
  have hdot : '.' ∉ cls := fun hmem =>
    ((validName_facts cls hcls).2 '.' hmem).2.1 rfl
  have hcolon : ':' ∉ f := fun hmem =>
    ((validName_facts f hf).2 ':' hmem).2.2.1 rfl
  obtain ⟨c, t, hct, hc1, _, _, _⟩ := printFieldType_head d hd
  simp only [List.append_assoc, List.cons_append, List.singleton_append,
    splitAtChar_self '.' cls (f ++ ':' :: printFieldType d) hdot,
    splitAtChar_self ':' f (printFieldType d) hcolon]
  rw [hct]
  simp only [hc1, if_false, ← hct, parseFieldTypeFull_print d hd]

theorem demangleFieldOrDirect_direct (cls m : List Char) (d : MethodType)
    (hcls : validName cls = true) (hm : validName m = true) :
    demangleFieldOrDirect (mangleDirectMethodCall cls m d)
      = DemangledVariant.monostate := by
  unfold demangleFieldOrDirect mangleDirectMethodCall
  have hdot : '.' ∉ cls := fun hmem =>
    ((validName_facts cls hcls).2 '.' hmem).2.1 rfl
  have hcolon : ':' ∉ m := fun hmem =>
    ((validName_facts m hm).2 ':' hmem).2.2.1 rfl
  simp only [List.append_assoc, List.cons_append, List.singleton_append,
    splitAtChar_self '.' cls (m ++ ':' :: printMethodType d) hdot,
    splitAtChar_self ':' m (printMethodType d) hcolon]
  rw [show printMethodType d
    = '(' :: (printParams d.parameters ++ ')' :: printFieldType d.returnType)
    from rfl]
  simp

theorem space_not_mem_mangleDirect (cls m : List Char) (d : MethodType)
    (hcls : validName cls = true) (hm : validName m = true)
    (hd : wfMethod d = true) :
    ' ' ∉ mangleDirectMethodCall cls m d := by
  intro hmem
  unfold mangleDirectMethodCall at hmem
  rcases List.mem_append.mp hmem with h0 | h0
  · rcases List.mem_append.mp h0 with h1 | h1
    · exact ((validName_facts cls hcls).2 ' ' h1).1 rfl
    · rcases List.mem_cons.mp h1 with h2 | h2
      · exact absurd h2 (by decide)
      · exact ((validName_facts m hm).2 ' ' h2).1 rfl
  · rcases List.mem_cons.mp h0 with h1 | h1
    · exact absurd h1 (by decide)
    · exact space_not_mem_printMethodType d hd h1

theorem space_not_mem_mangleField (cls f : List Char) (d : FieldType)
    (hcls : validName cls = true) (hf : validName f = true)
    (hd : wfField d = true) :
    ' ' ∉ mangleFieldAccess cls f d := by
  intro hmem
  unfold mangleFieldAccess at hmem
  rcases List.mem_append.mp hmem with h0 | h0
  · rcases List.mem_append.mp h0 with h1 | h1
    · exact ((validName_facts cls hcls).2 ' ' h1).1 rfl
    · rcases List.mem_cons.mp h1 with h2 | h2
      · exact absurd h2 (by decide)
      · exact ((validName_facts f hf).2 ' ' h2).1 rfl
  · rcases List.mem_cons.mp h0 with h1 | h1
    · exact absurd h1 (by decide)
    · exact space_not_mem_printFieldType d hd h1

/-- C1: for every grammar of spec §3.3 except direct calls — method
resolution calls (Virtual, Interface, Special), static calls, field
accesses, and class-object loads over well-formed names and descriptors —
demangling the mangled symbol recovers exactly the structured input. -/
theorem mangle_demangle_roundtrip (cls m f : List Char) (dm : MethodType)
    (df : FieldType) (res : MethodResolution)
    (hcls : validName cls = true) (hm : validName m = true)
    (hf : validName f = true) (hdm : wfMethod dm = true)
    (hdf : wfField df = true) :
    demangleStubSymbolName (mangleMethodResolutionCall res cls m dm)
      = DemangledVariant.methodResolutionCall res cls m dm
    ∧ demangleStubSymbolName (mangleStaticCall cls m dm)
      = DemangledVariant.staticCall cls m dm
    ∧ demangleStubSymbolName (mangleFieldAccess cls f df)
      = DemangledVariant.fieldAccess cls f df
    ∧ demangleStubSymbolName (mangleClassObjectAccess df)
      = DemangledVariant.classObjectLoad df := by
  have hcb := parseCallBody_print cls m dm hcls hm hdm
  refine ⟨?_, ?_, ?_, ?_⟩
  · cases res with
    | Virtual => exact demangle_vPre_eval _ cls m dm hcb
    | Interface => exact demangle_iPre_eval _ cls m dm hcb
    | Special => exact demangle_spPre_eval _ cls m dm hcb
  · exact demangle_stPre_eval _ cls m dm hcb
  · rw [demangle_noTag _ (space_not_mem_mangleField cls f df hcls hf hdf)]
    exact demangleFieldOrDirect_field cls f df hcls hf hdf
  · exact demangle_ldPre_eval _ df (parseFieldTypeFull_print df hdf)

/-- C1 witness: the round trip evaluated on the spec's own scenarios
(`java/lang/Object.toString:()Ljava/lang/String;` and friends). -/
theorem mangle_demangle_roundtrip_witness :
    demangleStubSymbolName (mangleMethodResolutionCall MethodResolution.Virtual
        ('j' :: 'a' :: 'v' :: 'a' :: '/' :: 'l' :: 'a' :: 'n' :: 'g' :: '/' ::
          'O' :: 'b' :: 'j' :: 'e' :: 'c' :: 't' :: [])
        ('t' :: 'o' :: 'S' :: 't' :: 'r' :: 'i' :: 'n' :: 'g' :: [])
        ⟨[], FieldType.object
          ('j' :: 'a' :: 'v' :: 'a' :: '/' :: 'l' :: 'a' :: 'n' :: 'g' :: '/' ::
            'S' :: 't' :: 'r' :: 'i' :: 'n' :: 'g' :: [])⟩)
      = DemangledVariant.methodResolutionCall MethodResolution.Virtual
        ('j' :: 'a' :: 'v' :: 'a' :: '/' :: 'l' :: 'a' :: 'n' :: 'g' :: '/' ::
          'O' :: 'b' :: 'j' :: 'e' :: 'c' :: 't' :: [])
        ('t' :: 'o' :: 'S' :: 't' :: 'r' :: 'i' :: 'n' :: 'g' :: [])
        ⟨[], FieldType.object
          ('j' :: 'a' :: 'v' :: 'a' :: '/' :: 'l' :: 'a' :: 'n' :: 'g' :: '/' ::
            'S' :: 't' :: 'r' :: 'i' :: 'n' :: 'g' :: [])⟩
    ∧ demangleStubSymbolName (mangleStaticCall ('a' :: [])
        ('m' :: []) ⟨[], FieldType.object
          ('j' :: 'a' :: 'v' :: 'a' :: '/' :: 'l' :: 'a' :: 'n' :: 'g' :: '/' ::
            'S' :: 't' :: 'r' :: 'i' :: 'n' :: 'g' :: [])⟩)
      = DemangledVariant.staticCall ('a' :: []) ('m' :: [])
        ⟨[], FieldType.object
          ('j' :: 'a' :: 'v' :: 'a' :: '/' :: 'l' :: 'a' :: 'n' :: 'g' :: '/' ::
            'S' :: 't' :: 'r' :: 'i' :: 'n' :: 'g' :: [])⟩
    ∧ demangleStubSymbolName (mangleFieldAccess ('a' :: []) ('f' :: [])
        (FieldType.array (FieldType.base BaseTypeValues.Int)))
      = DemangledVariant.fieldAccess ('a' :: []) ('f' :: [])
        (FieldType.array (FieldType.base BaseTypeValues.Int))
    ∧ demangleStubSymbolName (mangleClassObjectAccess
        (FieldType.array (FieldType.base BaseTypeValues.Int)))
      = DemangledVariant.classObjectLoad
        (FieldType.array (FieldType.base BaseTypeValues.Int)) := by
  have h1 := mangle_demangle_roundtrip
    ('j' :: 'a' :: 'v' :: 'a' :: '/' :: 'l' :: 'a' :: 'n' :: 'g' :: '/' ::
      'O' :: 'b' :: 'j' :: 'e' :: 'c' :: 't' :: [])
    ('t' :: 'o' :: 'S' :: 't' :: 'r' :: 'i' :: 'n' :: 'g' :: [])
    ('f' :: [])
    ⟨[], FieldType.object
      ('j' :: 'a' :: 'v' :: 'a' :: '/' :: 'l' :: 'a' :: 'n' :: 'g' :: '/' ::
        'S' :: 't' :: 'r' :: 'i' :: 'n' :: 'g' :: [])⟩
    (FieldType.array (FieldType.base BaseTypeValues.Int))
    MethodResolution.Virtual
    (by decide) (by decide) (by decide) (by decide) (by decide)
  have h2 := mangle_demangle_roundtrip ('a' :: []) ('m' :: []) ('f' :: [])
    ⟨[], FieldType.object
      ('j' :: 'a' :: 'v' :: 'a' :: '/' :: 'l' :: 'a' :: 'n' :: 'g' :: '/' ::
        'S' :: 't' :: 'r' :: 'i' :: 'n' :: 'g' :: [])⟩
    (FieldType.array (FieldType.base BaseTypeValues.Int))
    MethodResolution.Virtual
    (by decide) (by decide) (by decide) (by decide) (by decide)
  exact ⟨h1.1, h2.2.1, h2.2.2.1, h2.2.2.2⟩

theorem demangle_sound_cases : ∀ s r, demangleStubSymbolName s = r →
    r = DemangledVariant.monostate ∨ s = remangle r := by
  intro s r hdem
  unfold demangleStubSymbolName at hdem
  cases h1 : dropLead vPre s with
  | some body =>
    simp only [h1] at hdem
    cases h2 : parseCallBody body with
    | none => simp only [h2] at hdem; exact Or.inl hdem.symm
    | some p =>
      obtain ⟨cls, m, d⟩ := p
      simp only [h2] at hdem
      subst hdem
      right
      rw [dropLead_sound vPre s body h1, parseCallBody_sound body cls m d h2]
      rfl
  | none =>
    simp only [h1] at hdem
    cases h2 : dropLead iPre s with
    | some body =>
      simp only [h2] at hdem
      cases h3 : parseCallBody body with
      | none => simp only [h3] at hdem; exact Or.inl hdem.symm
      | some p =>
        obtain ⟨cls, m, d⟩ := p
        simp only [h3] at hdem
        subst hdem
        right
        rw [dropLead_sound iPre s body h2, parseCallBody_sound body cls m d h3]
        rfl
    | none =>
      simp only [h2] at hdem
      cases h3 : dropLead spPre s with
      | some body =>
        simp only [h3] at hdem
        cases h4 : parseCallBody body with
        | none => simp only [h4] at hdem; exact Or.inl hdem.symm
        | some p =>
          obtain ⟨cls, m, d⟩ := p
          simp only [h4] at hdem
          subst hdem
          right
          rw [dropLead_sound spPre s body h3,
            parseCallBody_sound body cls m d h4]
          rfl
      | none =>
        simp only [h3] at hdem
        cases h4 : dropLead stPre s with
        | some body =>
          simp only [h4] at hdem
          cases h5 : parseCallBody body with
          | none => simp only [h5] at hdem; exact Or.inl hdem.symm
          | some p =>
            obtain ⟨cls, m, d⟩ := p
            simp only [h5] at hdem
            subst hdem
            right
            rw [dropLead_sound stPre s body h4,
              parseCallBody_sound body cls m d h5]
            rfl
        | none =>
          simp only [h4] at hdem
          cases h5 : dropLead ldPre s with
          | some body =>
            simp only [h5] at hdem
            cases h6 : parseFieldTypeFull body with
            | none => simp only [h6] at hdem; exact Or.inl hdem.symm
            | some d =>
              simp only [h6] at hdem
              subst hdem
              right
              rw [dropLead_sound ldPre s body h5,
                parseFieldTypeFull_sound body d h6]
              rfl
          | none =>
            simp only [h5] at hdem
            unfold demangleFieldOrDirect at hdem
            cases h6 : splitAtChar '.' s with
            | none => simp only [h6] at hdem; exact Or.inl hdem.symm
            | some p =>
              obtain ⟨cls, r1⟩ := p
              simp only [h6] at hdem
              cases h7 : splitAtChar ':' r1 with
              | none => simp only [h7] at hdem; exact Or.inl hdem.symm
              | some q =>
                obtain ⟨f, desc⟩ := q
                simp only [h7] at hdem
                cases desc with
                | nil => exact Or.inl hdem.symm
                | cons c t =>
                  have hdem' : (if c = '(' then DemangledVariant.monostate
                    else match parseFieldTypeFull (c :: t) with
                      | some d => DemangledVariant.fieldAccess cls f d
                      | none => DemangledVariant.monostate) = r := hdem
                  by_cases hc : c = '('
                  · rw [if_pos hc] at hdem'
                    exact Or.inl hdem'.symm
                  · rw [if_neg hc] at hdem'
                    cases h8 : parseFieldTypeFull (c :: t) with
                    | none =>
                      simp only [h8] at hdem'
                      exact Or.inl hdem'.symm
                    | some d =>
                      simp only [h8] at hdem'
                      subst hdem'
                      right
                      obtain ⟨he1, _⟩ := splitAtChar_sound '.' s cls r1 h6
                      obtain ⟨he2, _⟩ := splitAtChar_sound ':' r1 f (c :: t) h7
                      have he3 := parseFieldTypeFull_sound (c :: t) d h8
                      rw [he1, he2, he3]
                      show cls ++ '.' :: (f ++ ':' :: printFieldType d)
                        = mangleFieldAccess cls f d
                      unfold mangleFieldAccess
                      simp

/-- C2: a string recognized by the demangler is always the mangling of the
recovered request — so any string not produced by a §3.3 grammar demangles
to `std::monostate` — and in particular a direct-call symbol (whose
descriptor after `:` starts with `(`) demangles to `monostate`; mangling is
a total function and never fails. -/
theorem demangle_rejects_unknown :
    (∀ s, demangleStubSymbolName s ≠ DemangledVariant.monostate →
      s = remangle (demangleStubSymbolName s))
    ∧ (∀ cls m d, validName cls = true → validName m = true →
        wfMethod d = true →
        demangleStubSymbolName (mangleDirectMethodCall cls m d)
          = DemangledVariant.monostate) := by
  constructor
  · intro s hne
    rcases demangle_sound_cases s (demangleStubSymbolName s) rfl with h | h
    · exact absurd h hne
    · exact h
  · intro cls m d hcls hm hd
    rw [demangle_noTag _ (space_not_mem_mangleDirect cls m d hcls hm hd)]
    exact demangleFieldOrDirect_direct cls m d hcls hm

/-- C2 witness: the spec's `Load [I` symbol remangles to itself, and a
concrete direct-call symbol `a.m:()V` demangles to `monostate`. -/
theorem demangle_rejects_unknown_witness :
    ('L' :: 'o' :: 'a' :: 'd' :: ' ' :: '[' :: 'I' :: [])
      = remangle (demangleStubSymbolName
          ('L' :: 'o' :: 'a' :: 'd' :: ' ' :: '[' :: 'I' :: []))
    ∧ demangleStubSymbolName (mangleDirectMethodCall ('a' :: []) ('m' :: [])
        ⟨[], FieldType.base BaseTypeValues.Void⟩)
      = DemangledVariant.monostate :=
  ⟨demangle_rejects_unknown.1
    ('L' :: 'o' :: 'a' :: 'd' :: ' ' :: '[' :: 'I' :: []) (by decide),
   demangle_rejects_unknown.2 ('a' :: []) ('m' :: [])
    ⟨[], FieldType.base BaseTypeValues.Void⟩
    (by decide) (by decide) (by decide)⟩

end jllvm
